import Mathlib

/-!
A verification development for `shell.c` (lsh).

The C program is embedded shallowly.  Memory buffers are lists of characters
addressed by natural-number offsets, C strings are read from a buffer up to the
first NUL, and every write into a heap array is bounds-checked against the
capacity the code believes the array to have.  The `int` counters of the
source are natural numbers (they count characters and tokens of one line), and
`malloc` and `realloc` are taken to succeed (the source exits otherwise).  What
the operating system does (`chdir`, `fork`, `waitpid`, standard input) is a
parameter of the model.
-/

set_option maxRecDepth 100000

namespace Lsh

/-! ## Results of running modelled C code -/

/-- Result of a modelled C function that only touches memory: it returns a
value, or writes outside an allocated array (undefined behaviour in C; the
index and the capacity are recorded), or is still running when the iteration
budget of the model is used up. -/
inductive Result (α : Type) where
  | ok (a : α)
  | outOfBounds (index capacity : Nat)
  | outOfFuel
  deriving DecidableEq, Repr

/-! ## Constants of the source -/

/-- The constant `#define LSH_RL_BUFSIZE 1024`. -/
def LSH_RL_BUFSIZE : Nat := 1024

/-- The constant `#define LSH_TOK_BUFSIZE 64`. -/
def LSH_TOK_BUFSIZE : Nat := 64

/-- The string terminator `'\0'`. -/
def NUL : Char := Char.ofNat 0

/-- The constant `#define LSH_TOK_DELIM " \t\r\n\a"`: space, tab, carriage return,
newline and bell. -/
def LSH_TOK_DELIM : List Char :=
  [Char.ofNat 32, Char.ofNat 9, Char.ofNat 13, Char.ofNat 10, Char.ofNat 7]

/-- Membership of a character in `LSH_TOK_DELIM`. -/
def isDelim (c : Char) : Bool := LSH_TOK_DELIM.contains c

/-! ## Memory and the C library string functions used by the tokenizer -/

/-- The byte at offset `p` of a buffer (`*p`). -/
def peek (mem : List Char) (p : Nat) : Char := mem.getD p NUL

/-- The C string that starts at offset `p`: the characters before the first NUL. -/
def cstrAt (mem : List Char) (p : Nat) : List Char :=
  (mem.drop p).takeWhile (fun c => c != NUL)

/-- Library function `strspn(s, accept)`: length of the initial segment of the C
string at `s` made only of characters of `accept`. -/
def strspn (mem : List Char) (s : Nat) (accept : List Char) : Nat :=
  ((mem.drop s).takeWhile (fun c => c != NUL && accept.contains c)).length

/-- Library function `strcspn(s, reject)`: length of the initial segment of the C
string at `s` made of characters not in `reject`. -/
def strcspn (mem : List Char) (s : Nat) (reject : List Char) : Nat :=
  ((mem.drop s).takeWhile (fun c => c != NUL && !reject.contains c)).length

/-- What `strtok` works on: the buffer it scans and overwrites, and its saved
pointer (the static variable of the C library). -/
structure StrtokState where
  mem : List Char
  olds : Nat
  deriving DecidableEq, Repr

/-- Library function `strtok(s, delim)` as the C standard describes it: with
`s = NULL` (here `none`) scanning resumes at the saved pointer; leading
delimiters are skipped; when the string ends there the result is `NULL`;
otherwise the token runs up to the next delimiter, which is overwritten by NUL,
and the saved pointer moves past it. -/
def strtok (s : Option Nat) (delim : List Char) (st : StrtokState) :
    Option Nat × StrtokState :=
  let s0 := s.getD st.olds
  let s1 := s0 + strspn st.mem s0 delim
  if peek st.mem s1 = NUL then (none, { st with olds := s1 })
  else
    let e := s1 + strcspn st.mem s1 delim
    if peek st.mem e = NUL then (some s1, { st with olds := e })
    else (some s1, { mem := st.mem.set e NUL, olds := e + 1 })

/-! ## `lsh_split_line` (shell.c, lines 117-145) -/

/-- Local state of `lsh_split_line`: the line buffer with the `strtok` cursor,
the capacity `bufsize` of the array `tokens`, the index `position`, and the
cells of `tokens` written so far (a cell holds a pointer into the line, or
`NULL`). -/
structure SplitState where
  st : StrtokState
  bufsize : Nat
  position : Nat
  tokens : List (Option Nat)
  deriving DecidableEq, Repr

/-- The loop `while (token != NULL) { ... }` of `lsh_split_line`, with a budget
of passes.  The store `tokens[position] = token` faults when `position` is not
below `bufsize`; after it `position` is incremented, the array grows by
`LSH_TOK_BUFSIZE` cells when `position >= bufsize`, and
`strtok(NULL, LSH_TOK_DELIM)` gives the next token. -/
def split_loop : Nat → Option Nat → SplitState → Result SplitState
  | 0, _, _ => Result.outOfFuel
  | _ + 1, none, s => Result.ok s
  | fuel + 1, some token, s =>
    if s.position < s.bufsize then
      let tokens := s.tokens.take s.position ++ [some token]
      let position := s.position + 1
      let bufsize := if position ≥ s.bufsize then s.bufsize + LSH_TOK_BUFSIZE else s.bufsize
      let r := strtok none LSH_TOK_DELIM s.st
      split_loop fuel r.1 { st := r.2, bufsize := bufsize, position := position, tokens := tokens }
    else Result.outOfBounds s.position s.bufsize

/-- The argument vector a NULL-terminated array of pointers denotes: the C
strings at the pointers before the first `NULL`. -/
def read_argv (mem : List Char) : List (Option Nat) → List String
  | [] => []
  | none :: _ => []
  | some p :: rest => String.mk (cstrAt mem p) :: read_argv mem rest

/-- The function `lsh_split_line`.  `line` is the content of the line buffer,
terminator included.  The loop gets one pass more than the buffer has
characters, which is always enough.  After the loop `tokens[position] = NULL`
is stored, again bounds-checked.  The result is the argument vector denoted by
the returned array, read from the line as `strtok` left it. -/
def lsh_split_line (line : List Char) : Result (List String) :=
  let r := strtok (some 0) LSH_TOK_DELIM { mem := line, olds := 0 }
  match split_loop (line.length + 1) r.1
      { st := r.2, bufsize := LSH_TOK_BUFSIZE, position := 0, tokens := [] } with
  | Result.ok s =>
    if s.position < s.bufsize then
      Result.ok (read_argv s.st.mem (s.tokens.take s.position ++ [none]))
    else Result.outOfBounds s.position s.bufsize
  | Result.outOfBounds i c => Result.outOfBounds i c
  | Result.outOfFuel => Result.outOfFuel

/-! ## Reference description of tokenization -/

/-- The C string a buffer holds from its start: the characters before the first
NUL. -/
def cstr (l : List Char) : List Char := l.takeWhile (fun c => c != NUL)

/-- Reference tokenizer, by recursion on the line: a delimiter is skipped; any
other character starts a new run when a delimiter or the end follows it, and
extends the run that starts right after it otherwise. -/
def runs : List Char → List (List Char)
  | [] => []
  | c :: cs =>
    if isDelim c then runs cs
    else
      match cs.head?, runs cs with
      | some d, t :: ts => if isDelim d then [c] :: t :: ts else (c :: t) :: ts
      | _, ts => [c] :: ts

/-- The relation `MaximalRuns line toks`: `toks` lists, from left to right, the
maximal runs of non-delimiter characters of `line`.  Either the line holds
delimiters only and there is no run; or the line is a block `d` of delimiters,
then a non-empty run `t` free of delimiters, then a rest that is empty or
starts with a delimiter and whose maximal runs are the remaining tokens. -/
inductive MaximalRuns : List Char → List (List Char) → Prop
  | done (d : List Char) (hd : ∀ c ∈ d, isDelim c = true) : MaximalRuns d []
  | run (d t rest : List Char) (toks : List (List Char))
      (hd : ∀ c ∈ d, isDelim c = true) (ht : t ≠ []) (hnd : ∀ c ∈ t, isDelim c = false)
      (hmax : ∀ c ∈ rest.head?, isDelim c = true)
      (h : MaximalRuns rest toks) : MaximalRuns (d ++ t ++ rest) (t :: toks)

/-- Joining an argument vector with single spaces. -/
def join_args (args : List String) : List Char :=
  List.intercalate [Char.ofNat 32] (args.map String.data)

/-! ## `lsh_read_line` (shell.c, lines 57-90) -/

/-- The loop `while (true) { c = getchar(); ... }` of `lsh_read_line`, by
recursion on the characters still to come on standard input (`[]` is
end-of-input, where `getchar` returns `EOF`).  `buffer` holds the cells written
so far.  On `EOF` or newline the terminator is stored at `position` and the
buffer is returned together with the unread input; any other character is
stored at `position`, which is then incremented.  A store faults when
`position` is not below `bufsize`.  The block `if (position >= bufsize) { ...
realloc ... }` of lines 81-89 stands after the loop, which is left only by
`return`, so it is never executed and `bufsize` never changes. -/
def read_loop : List Char → Nat → Nat → List Char → Result (List Char × List Char)
  | [], bufsize, position, buffer =>
    if position < bufsize then Result.ok (buffer.take position ++ [NUL], [])
    else Result.outOfBounds position bufsize
  | c :: rest, bufsize, position, buffer =>
    if c = Char.ofNat 10 then
      if position < bufsize then Result.ok (buffer.take position ++ [NUL], rest)
      else Result.outOfBounds position bufsize
    else if position < bufsize then
      read_loop rest bufsize (position + 1) (buffer.take position ++ [c])
    else Result.outOfBounds position bufsize

/-- The function `lsh_read_line`, run on the characters `stdin` still to come
on standard input.  It returns the line buffer (terminator included) and the
unread input.  Allocation is taken to succeed. -/
def lsh_read_line (stdin : List Char) : Result (List Char × List Char) :=
  read_loop stdin LSH_RL_BUFSIZE 0 []

/-! ## The process and its operating system -/

/-- A status `waitpid(pid, &status, WUNTRACED)` reports for a child. -/
inductive WStatus where
  | exited (code : Nat)
  | signaled (sig : Nat)
  | stopped (sig : Nat)
  deriving DecidableEq, Repr

/-- The test `WIFEXITED(status)`. -/
def WIFEXITED : WStatus → Bool
  | WStatus.exited _ => true
  | _ => false

/-- The test `WIFSIGNALED(status)`. -/
def WIFSIGNALED : WStatus → Bool
  | WStatus.signaled _ => true
  | _ => false

/-- The observable state of the shell process.  `forks` counts the calls of
`fork`; `children` lists the child processes created, each with the program
and the argument vector it hands to `execvp`; `waits` lists the statuses
`waitpid` has returned; `ran` lists the builtin handlers entered and
`dispatched` the argument vectors given to `lsh_execute` by the loop (both are
bookkeeping of the model, the program keeps no such lists). -/
structure World where
  cwd : String
  stdin : List Char
  stdout : List String
  stderr : List String
  forks : Nat
  children : List (String × List String)
  waits : List WStatus
  ran : List String
  dispatched : List (List String)
  deriving DecidableEq, Repr

/-- What the operating system answers.  `chdir cwd path` is the error number or
the new working directory; `fork n` is the answer to the `n`-th call of `fork`
in the shell process, an error number or the child's pid; `waitpid n` lists the
statuses successive `waitpid` calls report for the `n`-th child, after which
`waitpid` blocks for ever. -/
structure OS where
  pw_name : String
  strerror : Nat → String
  chdir : String → String → Except Nat String
  fork : Nat → Except Nat Nat
  waitpid : Nat → List WStatus

/-- Result of a modelled C function that acts on the world: it returns a value,
or faults on an out-of-bounds write, or blocks for ever in a system call, or
is still running when the iteration budget is used up; each time with the
world as it is at that point. -/
inductive Run (α : Type) where
  | returned (a : α) (w : World)
  | outOfBounds (index capacity : Nat) (w : World)
  | blocked (w : World)
  | outOfFuel (w : World)
  deriving DecidableEq, Repr

/-- The world a run ends in. -/
def Run.world {α : Type} : Run α → World
  | Run.returned _ w => w
  | Run.outOfBounds _ _ w => w
  | Run.blocked w => w
  | Run.outOfFuel w => w

/-- The line `perror(s)` writes to the error stream for error number `errno`. -/
def perror (os : OS) (s : String) (errno : Nat) : String :=
  s ++ ": " ++ os.strerror errno ++ "\n"

/-! ## `lsh_launch` (shell.c, lines 147-169) -/

/-- The loop `do { wpid = waitpid(pid, &status, WUNTRACED); } while
(!WIFEXITED(status) && !WIFSIGNALED(status));` run on the statuses the child
will report; `seen` collects the statuses received.  Each call of `waitpid`
that returns is taken to report a status; when no status is left the call does
not return. -/
def wait_loop : List WStatus → List WStatus → Option (List WStatus)
  | [], _ => none
  | status :: later, seen =>
    if !WIFEXITED status && !WIFSIGNALED status then wait_loop later (seen ++ [status])
    else some (seen ++ [status])

/-- The function `lsh_launch` as it runs in the shell process.  There `fork`
returns a negative value (`perror` is called) or the pid of a new child; the
branch `pid == 0` runs in that child, which calls `execvp(args[0], args)` and
exits if that fails, so it never returns into the shell's code.  The shell then
waits as `wait_loop` describes and returns 1.  The field `stdin` is the input as
the shell itself would go on reading it; what a child does to an input it
shares with the shell (reading from it, or moving the offset of a seekable
file when it ends in `exit`) is left out. -/
def lsh_launch (os : OS) (args : List String) (w : World) : Run Nat :=
  let w1 := { w with forks := w.forks + 1 }
  match os.fork w.forks with
  | Except.error errno =>
    Run.returned 1 { w1 with stderr := w1.stderr ++ [perror os "lsh" errno] }
  | Except.ok _ =>
    let w2 := { w1 with children := w1.children ++ [(args.headD "", args)] }
    match wait_loop (os.waitpid w.forks) [] with
    | some seen => Run.returned 1 { w2 with waits := w2.waits ++ seen }
    | none => Run.blocked { w2 with waits := w2.waits ++ os.waitpid w.forks }

/-! ## The builtins (shell.c, lines 171-218) -/

/-- The array `builtin_str`. -/
def builtin_str : List String := ["cd", "help", "exit"]

/-- The function `lsh_num_builtins`. -/
def lsh_num_builtins : Nat := builtin_str.length

/-- The function `lsh_cd`: `args[1] == NULL` is an argument vector without a
second element. -/
def lsh_cd (os : OS) (args : List String) (w : World) : Run Nat :=
  let w1 := { w with ran := w.ran ++ ["cd"] }
  match args[1]? with
  | none =>
    Run.returned 1 { w1 with stderr := w1.stderr ++ ["lsh: expected argument to \"cd\"\n"] }
  | some path =>
    match os.chdir w1.cwd path with
    | Except.error errno =>
      Run.returned 1 { w1 with stderr := w1.stderr ++ [perror os "lsh" errno] }
    | Except.ok dir => Run.returned 1 { w1 with cwd := dir }

/-- The function `lsh_help`. -/
def lsh_help (_args : List String) (w : World) : Run Nat :=
  let w1 := { w with ran := w.ran ++ ["help"] }
  let banner := ["Colin Largen's Linux Shell\n",
    "Type the program names and arguments, and hit enter.\n",
    "The following are built in:\n"]
  let names := builtin_str.map (fun name => " " ++ name ++ "\n")
  let footer := ["Use the man command for informatioin on other programs.\n"]
  Run.returned 1 { w1 with stdout := w1.stdout ++ banner ++ names ++ footer }

/-- The function `lsh_exit`. -/
def lsh_exit (_args : List String) (w : World) : Run Nat :=
  Run.returned 0 { w with ran := w.ran ++ ["exit"] }

/-- The array `builtin_func`, in the order of `builtin_str`. -/
def builtin_func (os : OS) : List (List String → World → Run Nat) :=
  [lsh_cd os, lsh_help, lsh_exit]

/-! ## `lsh_execute` (shell.c, lines 220-234) -/

/-- The function `lsh_execute`: an empty vector (`args[0] == NULL`) returns 1;
otherwise the first `i` with `strcmp(args[0], builtin_str[i]) == 0` selects
`builtin_func[i]`; without such an `i` the vector goes to `lsh_launch`. -/
def lsh_execute (os : OS) (args : List String) (w : World) : Run Nat :=
  match args.head? with
  | none => Run.returned 1 w
  | some cmd =>
    match (builtin_str.zip (builtin_func os)).find? (fun entry => cmd == entry.1) with
    | some entry => entry.2 args w
    | none => lsh_launch os args w

/-! ## `lsh_loop` (shell.c, lines 37-55) -/

/-- One pass through the body of the `do ... while (status)` loop: the prompt
is printed, a line is read, split and executed; the result is `status`. -/
def lsh_loop_body (os : OS) (w : World) : Run Nat :=
  let w1 := { w with stdout := w.stdout ++ [os.pw_name ++ "> "] }
  match lsh_read_line w1.stdin with
  | Result.ok (line, stdin) =>
    let w2 := { w1 with stdin := stdin }
    match lsh_split_line line with
    | Result.ok args => lsh_execute os args { w2 with dispatched := w2.dispatched ++ [args] }
    | Result.outOfBounds i c => Run.outOfBounds i c w2
    | Result.outOfFuel => Run.outOfFuel w2
  | Result.outOfBounds i c => Run.outOfBounds i c w1
  | Result.outOfFuel => Run.outOfFuel w1

/-- The function `lsh_loop`, with a budget of passes: the body is repeated
while `status` is not 0. -/
def lsh_loop (os : OS) : Nat → World → Run Unit
  | 0, w => Run.outOfFuel w
  | fuel + 1, w =>
    match lsh_loop_body os w with
    | Run.returned status w' =>
      if status ≠ 0 then lsh_loop os fuel w' else Run.returned () w'
    | Run.outOfBounds i c w' => Run.outOfBounds i c w'
    | Run.blocked w' => Run.blocked w'
    | Run.outOfFuel w' => Run.outOfFuel w'

/-! ## Concrete inputs for the examples -/

/-- An operating system for the examples: only `/tmp` can be entered, the first
`fork` succeeds and later ones fail, and a child is reported stopped twice
before it exits with code 3. -/
def demo_os : OS where
  pw_name := "user"
  strerror := fun errno =>
    if errno = 2 then "No such file or directory" else "Resource temporarily unavailable"
  chdir := fun _ path => if path = "/tmp" then Except.ok path else Except.error 2
  fork := fun n => if n = 0 then Except.ok 4242 else Except.error 11
  waitpid := fun _ => [WStatus.stopped 19, WStatus.stopped 19, WStatus.exited 3]

/-- An operating system whose children are stopped once and never end. -/
def stuck_os : OS where
  pw_name := "user"
  strerror := fun _ => "error"
  chdir := fun _ path => Except.ok path
  fork := fun _ => Except.ok 4242
  waitpid := fun _ => [WStatus.stopped 19]

/-- A world for the examples: working directory `/home`, nothing typed, nothing
written, no process created. -/
def demo_world : World where
  cwd := "/home"
  stdin := []
  stdout := []
  stderr := []
  forks := 0
  children := []
  waits := []
  ran := []
  dispatched := []

theorem runs_cons_delim {c : Char} (cs : List Char) (h : isDelim c = true) :
    runs (c :: cs) = runs cs := by
  simp [runs, h]

theorem runs_cons_unfold {c : Char} (cs : List Char) (h : isDelim c = false) :
    runs (c :: cs) = (match cs.head?, runs cs with
      | some d, t :: ts => if isDelim d then [c] :: t :: ts else (c :: t) :: ts
      | _, ts => [c] :: ts) := by
  rw [runs]; simp [h]

theorem runs_cons_tok {c : Char} (cs : List Char) (h : isDelim c = false) :
    runs (c :: cs) =
      (c :: cs.takeWhile (fun x => !isDelim x)) :: runs (cs.dropWhile (fun x => !isDelim x)) := by
  induction cs generalizing c with
  | nil => simp [runs, h]
  | cons d ds ih =>
    rw [runs_cons_unfold _ h]
    by_cases hd : isDelim d = true
    · cases hr : runs (d :: ds) <;> simp [hd, hr]
    · have hd' : isDelim d = false := by simpa using hd
      rw [ih hd']
      simp [hd']

theorem runs_append_delims (d x : List Char) (hd : ∀ c ∈ d, isDelim c = true) :
    runs (d ++ x) = runs x := by
  induction d with
  | nil => rfl
  | cons c d ih =>
    rw [List.cons_append, runs_cons_delim _ (hd c (List.mem_cons_self _ _))]
    exact ih (fun a ha => hd a (List.mem_cons_of_mem _ ha))

theorem takeWhile_append_stop {α : Type} (p : α → Bool) (t x : List α)
    (ht : ∀ c ∈ t, p c = true) (hx : ∀ c ∈ x.head?, p c = false) :
    (t ++ x).takeWhile p = t ∧ (t ++ x).dropWhile p = x := by
  induction t with
  | nil =>
    cases x with
    | nil => simp
    | cons a x =>
      have : p a = false := hx a (by simp)
      simp [this]
  | cons c t ih =>
    have hc : p c = true := ht c (List.mem_cons_self _ _)
    have := ih (fun a ha => ht a (List.mem_cons_of_mem _ ha))
    simp [hc, this]

theorem runs_tok_append (t x : List Char) (ht : t ≠ []) (hnd : ∀ c ∈ t, isDelim c = false)
    (hx : ∀ c ∈ x.head?, isDelim c = true) : runs (t ++ x) = t :: runs x := by
  cases t with
  | nil => exact absurd rfl ht
  | cons c t =>
    rw [List.cons_append, runs_cons_tok _ (hnd c (List.mem_cons_self _ _))]
    have := takeWhile_append_stop (fun x => !isDelim x) t x
      (fun a ha => by simp [hnd a (List.mem_cons_of_mem _ ha)])
      (fun a ha => by simp [hx a ha])
    rw [this.1, this.2]

/-- The maximal runs of a line are unique: they are what `runs` computes. -/
theorem MaximalRuns.eq_runs {l : List Char} {toks : List (List Char)} (h : MaximalRuns l toks) :
    toks = runs l := by
  induction h with
  | done d hd =>
    have := runs_append_delims d [] hd
    simp at this
    simp [this, runs]
  | run d t rest toks hd ht hnd hmax _ ih =>
    rw [List.append_assoc, runs_append_delims _ _ hd, runs_tok_append t rest ht hnd hmax, ih]

theorem maximalRuns_runs_aux (n : Nat) : ∀ l : List Char, l.length ≤ n → MaximalRuns l (runs l) := by
  induction n with
  | zero =>
    intro l hl
    have : l = [] := List.length_eq_zero.mp (Nat.le_zero.mp hl)
    subst this
    exact MaximalRuns.done [] (by simp)
  | succ n ih =>
    intro l hl
    have hsplit := List.takeWhile_append_dropWhile isDelim l
    have hd : ∀ c ∈ l.takeWhile isDelim, isDelim c = true := fun c hc => List.mem_takeWhile_imp hc
    cases hr : l.dropWhile isDelim with
    | nil =>
      rw [hr, List.append_nil] at hsplit
      have h0 : runs l = [] := by
        rw [← hsplit]
        have := runs_append_delims _ [] hd
        simpa [runs] using this
      rw [h0]
      exact MaximalRuns.done l (by rw [← hsplit]; exact hd)
    | cons c r =>
      have hc : isDelim c = false := by
        have := List.head_dropWhile_not isDelim l (by simp [hr])
        simpa [hr] using this
      rw [hr] at hsplit
      have hsplit2 := List.takeWhile_append_dropWhile (fun x => !isDelim x) r
      have hnd : ∀ a ∈ c :: r.takeWhile (fun x => !isDelim x), isDelim a = false := by
        intro a ha
        rcases List.mem_cons.mp ha with rfl | ha
        · exact hc
        · simpa using List.mem_takeWhile_imp ha
      have hmax : ∀ a ∈ (r.dropWhile (fun x => !isDelim x)).head?, isDelim a = true := by
        intro a ha
        have hne : r.dropWhile (fun x => !isDelim x) ≠ [] := by
          intro h; simp [h] at ha
        have := List.head_dropWhile_not (fun x => !isDelim x) r hne
        rw [List.head?_eq_head hne] at ha
        simp at ha
        subst ha
        simpa using this
      have hlen : (r.dropWhile (fun x => !isDelim x)).length ≤ n := by
        have h1 : (r.dropWhile (fun x => !isDelim x)).length ≤ r.length :=
          (List.dropWhile_sublist _).length_le
        have h2 : l.length = (l.takeWhile isDelim).length + (r.length + 1) := by
          conv_lhs => rw [← hsplit]
          simp
        omega
      have key : runs l = (c :: r.takeWhile (fun x => !isDelim x)) ::
          runs (r.dropWhile (fun x => !isDelim x)) := by
        conv_lhs => rw [← hsplit]
        rw [runs_append_delims _ _ hd, runs_cons_tok _ hc]
      have hl2 : l = l.takeWhile isDelim ++ (c :: r.takeWhile (fun x => !isDelim x)) ++
          r.dropWhile (fun x => !isDelim x) := by
        conv_lhs => rw [← hsplit, ← hsplit2]
        simp
      rw [key]
      conv_lhs => rw [hl2]
      exact MaximalRuns.run _ _ _ _ hd (by simp) hnd hmax (ih _ hlen)

/-- What `runs` computes are the maximal runs of the line. -/
theorem maximalRuns_runs (l : List Char) : MaximalRuns l (runs l) :=
  maximalRuns_runs_aux l.length l (Nat.le_refl _)

theorem cstrAt_append_length (a x : List Char) : cstrAt (a ++ x) a.length = cstr x := by
  simp [cstrAt, cstr]

theorem cstr_append_of_nonNUL (a x : List Char) (ha : ∀ c ∈ a, c ≠ NUL) :
    cstr (a ++ x) = a ++ cstr x := by
  unfold cstr
  rw [List.takeWhile_append_of_pos]
  intro c hc
  simpa using ha c hc

theorem cstr_of_headD {x : List Char} (h : x.headD NUL = NUL) : cstr x = [] := by
  cases x with
  | nil => rfl
  | cons c x =>
    simp at h
    simp [cstr, h]

theorem peek_append_length (a x : List Char) : peek (a ++ x) a.length = x.headD NUL := by
  unfold peek
  rw [List.getD_append_right _ _ _ _ (Nat.le_refl _)]
  cases x <;> simp

theorem isDelim_NUL : isDelim NUL = false := by decide

theorem strspn_eval (pre d x : List Char)
    (hd : ∀ c ∈ d, c ≠ NUL ∧ isDelim c = true)
    (hx : ∀ c ∈ x.head?, c = NUL ∨ isDelim c = false) :
    strspn (pre ++ (d ++ x)) pre.length LSH_TOK_DELIM = d.length := by
  unfold strspn
  rw [List.drop_left]
  have := takeWhile_append_stop (fun c => c != NUL && LSH_TOK_DELIM.contains c) d x
    (fun c hc => by
      have := hd c hc
      simp_all [isDelim])
    (fun c hc => by
      rcases hx c hc with h | h
      · simp [h]
      · simp_all [isDelim])
  rw [this.1]

theorem strcspn_eval (pre t x : List Char)
    (ht : ∀ c ∈ t, c ≠ NUL ∧ isDelim c = false)
    (hx : ∀ c ∈ x.head?, c = NUL ∨ isDelim c = true) :
    strcspn (pre ++ (t ++ x)) pre.length LSH_TOK_DELIM = t.length := by
  unfold strcspn
  rw [List.drop_left]
  have := takeWhile_append_stop (fun c => c != NUL && !LSH_TOK_DELIM.contains c) t x
    (fun c hc => by
      have := ht c hc
      simp_all [isDelim])
    (fun c hc => by
      rcases hx c hc with h | h
      · simp [h]
      · simp_all [isDelim])
  rw [this.1]

theorem strtok_none_eval (pre d x : List Char)
    (hd : ∀ c ∈ d, c ≠ NUL ∧ isDelim c = true) (hx : x.headD NUL = NUL) :
    strtok none LSH_TOK_DELIM ⟨pre ++ (d ++ x), pre.length⟩ =
      (none, ⟨pre ++ (d ++ x), pre.length + d.length⟩) := by
  have h1 : strspn (pre ++ (d ++ x)) pre.length LSH_TOK_DELIM = d.length :=
    strspn_eval pre d x hd (fun c hc => by
      cases x with
      | nil => simp at hc
      | cons a x => simp at hc hx; left; rw [← hc, hx])
  have h2 : peek (pre ++ (d ++ x)) (pre.length + d.length) = NUL := by
    rw [← List.append_assoc, ← List.length_append, peek_append_length, hx]
  simp [strtok, h1, h2]

theorem strtok_last_eval (pre d t r : List Char)
    (hd : ∀ c ∈ d, c ≠ NUL ∧ isDelim c = true) (ht : t ≠ [])
    (htc : ∀ c ∈ t, c ≠ NUL ∧ isDelim c = false) (hr : r.headD NUL = NUL) :
    strtok none LSH_TOK_DELIM ⟨pre ++ (d ++ (t ++ r)), pre.length⟩ =
      (some (pre ++ d).length, ⟨(pre ++ d ++ t) ++ r, (pre ++ d ++ t).length⟩) := by
  obtain ⟨a, t', rfl⟩ := List.exists_cons_of_ne_nil ht
  have ha := htc a (List.mem_cons_self _ _)
  have h1 : strspn (pre ++ (d ++ (a :: t' ++ r))) pre.length LSH_TOK_DELIM = d.length :=
    strspn_eval pre d _ hd (fun c hc => by
      simp at hc; right; rw [← hc]; exact ha.2)
  have h2 : peek (pre ++ (d ++ (a :: t' ++ r))) (pre.length + d.length) = a := by
    rw [← List.append_assoc, ← List.length_append, peek_append_length]; rfl
  have h3 : strcspn (pre ++ (d ++ (a :: t' ++ r))) (pre.length + d.length) LSH_TOK_DELIM =
      (a :: t').length := by
    rw [← List.append_assoc, ← List.length_append]
    exact strcspn_eval (pre ++ d) (a :: t') r htc (fun c hc => by
      cases r with
      | nil => simp at hc
      | cons b r => simp at hc hr; left; rw [← hc, hr])
  have h4 : peek (pre ++ (d ++ (a :: t' ++ r))) (pre.length + d.length + (a :: t').length) = NUL := by
    have : pre ++ (d ++ (a :: t' ++ r)) = (pre ++ d ++ (a :: t')) ++ r := by simp
    rw [this, ← List.length_append, ← List.length_append, peek_append_length, hr]
  simp only [strtok, Option.getD_none, h1, h2, h3, h4, if_true, if_neg ha.1]
  simp
  omega

theorem strtok_more_eval (pre d t r : List Char) (c : Char)
    (hd : ∀ c ∈ d, c ≠ NUL ∧ isDelim c = true) (ht : t ≠ [])
    (htc : ∀ c ∈ t, c ≠ NUL ∧ isDelim c = false) (hc : c ≠ NUL) (hcd : isDelim c = true) :
    strtok none LSH_TOK_DELIM ⟨pre ++ (d ++ (t ++ c :: r)), pre.length⟩ =
      (some (pre ++ d).length,
        ⟨(pre ++ d ++ t ++ [NUL]) ++ r, (pre ++ d ++ t ++ [NUL]).length⟩) := by
  obtain ⟨a, t', rfl⟩ := List.exists_cons_of_ne_nil ht
  have ha := htc a (List.mem_cons_self _ _)
  have h1 : strspn (pre ++ (d ++ (a :: t' ++ c :: r))) pre.length LSH_TOK_DELIM = d.length :=
    strspn_eval pre d _ hd (fun c hc => by
      simp at hc; right; rw [← hc]; exact ha.2)
  have h2 : peek (pre ++ (d ++ (a :: t' ++ c :: r))) (pre.length + d.length) = a := by
    rw [← List.append_assoc, ← List.length_append, peek_append_length]; rfl
  have h3 : strcspn (pre ++ (d ++ (a :: t' ++ c :: r))) (pre.length + d.length) LSH_TOK_DELIM =
      (a :: t').length := by
    rw [← List.append_assoc, ← List.length_append]
    exact strcspn_eval (pre ++ d) (a :: t') (c :: r) htc (fun b hb => by
      simp at hb; right; rw [← hb]; exact hcd)
  have hassoc : pre ++ (d ++ (a :: t' ++ c :: r)) = (pre ++ d ++ (a :: t')) ++ c :: r := by simp
  have h4 : peek (pre ++ (d ++ (a :: t' ++ c :: r))) (pre.length + d.length + (a :: t').length) = c := by
    rw [hassoc, ← List.length_append, ← List.length_append, peek_append_length]; rfl
  have h5 : (pre ++ (d ++ (a :: t' ++ c :: r))).set (pre.length + d.length + (a :: t').length) NUL =
      (pre ++ d ++ (a :: t') ++ [NUL]) ++ r := by
    rw [hassoc, ← List.length_append, ← List.length_append, List.set_append_right _ _ (Nat.le_refl _)]
    simp
  simp only [strtok, Option.getD_none, h1, h2, h3, h4, h5, if_neg ha.1, if_neg hc]
  simp
  omega

/-- The three shapes of the unscanned part of a buffer that `strtok` tells
apart: delimiters up to the end of the string; delimiters, a token and the end
of the string; delimiters, a token and a further delimiter. -/
theorem scan_decompose (rest : List Char) :
    ∃ d : List Char, (∀ c ∈ d, c ≠ NUL ∧ isDelim c = true) ∧
      ((∃ x, rest = d ++ x ∧ x.headD NUL = NUL) ∨
       (∃ t r, t ≠ [] ∧ (∀ c ∈ t, c ≠ NUL ∧ isDelim c = false) ∧ rest = d ++ (t ++ r) ∧
          (r.headD NUL = NUL ∨ ∃ c r', r = c :: r' ∧ c ≠ NUL ∧ isDelim c = true))) := by
  refine ⟨rest.takeWhile (fun c => c != NUL && isDelim c), ?_, ?_⟩
  · intro c hc
    have := List.mem_takeWhile_imp hc
    simpa using this
  · have hsplit := List.takeWhile_append_dropWhile (fun c => c != NUL && isDelim c) rest
    cases hx : rest.dropWhile (fun c => c != NUL && isDelim c) with
    | nil => left; exact ⟨[], by rw [hx] at hsplit; exact hsplit.symm, rfl⟩
    | cons a x =>
      by_cases ha : a = NUL
      · left; exact ⟨a :: x, by rw [hx] at hsplit; exact hsplit.symm, by simp [ha]⟩
      · right
        have had : isDelim a = false := by
          have := List.head_dropWhile_not (fun c => c != NUL && isDelim c) rest (by simp [hx])
          simp only [hx, List.head_cons] at this
          simpa [ha] using this
        have hsplit2 := List.takeWhile_append_dropWhile (fun c => c != NUL && !isDelim c) (a :: x)
        refine ⟨(a :: x).takeWhile (fun c => c != NUL && !isDelim c),
          (a :: x).dropWhile (fun c => c != NUL && !isDelim c), ?_, ?_, ?_, ?_⟩
        · simp [ha, had]
        · intro c hc
          have := List.mem_takeWhile_imp hc
          simpa using this
        · rw [hsplit2, ← hx, hsplit]
        · cases hr : (a :: x).dropWhile (fun c => c != NUL && !isDelim c) with
          | nil => left; rfl
          | cons b r' =>
            by_cases hb : b = NUL
            · left; simp [hb]
            · right
              refine ⟨b, r', rfl, hb, ?_⟩
              have := List.head_dropWhile_not (fun c => c != NUL && !isDelim c) (a :: x)
                (by simp [hr])
              simp only [hr, List.head_cons] at this
              simpa [hb] using this

/-- Invariant of the loop of `lsh_split_line`.  Started after a `strtok` call on
a buffer whose scanned part is `pre` and whose unscanned part is `rest`, the
loop ends without a fault, leaves `pre` untouched, keeps `position` below
`bufsize`, and appends pointers whose C strings in the final buffer are the
runs of the C string in `rest`. -/
theorem split_loop_spec (fuel : Nat) :
    ∀ (pre rest : List Char) (bufsize position : Nat) (tokens : List (Option Nat)),
      rest.length < fuel → position < bufsize → tokens.length = position →
      ∃ (rest' : List Char) (ptrs : List Nat) (bufsize' olds' : Nat),
        split_loop fuel (strtok none LSH_TOK_DELIM ⟨pre ++ rest, pre.length⟩).1
            ⟨(strtok none LSH_TOK_DELIM ⟨pre ++ rest, pre.length⟩).2, bufsize, position, tokens⟩
          = Result.ok ⟨⟨pre ++ rest', olds'⟩, bufsize', position + ptrs.length,
              tokens ++ ptrs.map some⟩
        ∧ position + ptrs.length < bufsize'
        ∧ ptrs.map (cstrAt (pre ++ rest')) = runs (cstr rest)
        ∧ cstr rest' <+: cstr rest := by
  induction fuel with
  | zero => intro pre rest bufsize position tokens h; omega
  | succ fuel ih =>
    intro pre rest bufsize position tokens hfuel hpos hlen
    obtain ⟨d, hd, hcase⟩ := scan_decompose rest
    have hdN : ∀ c ∈ d, c ≠ NUL := fun c hc => (hd c hc).1
    have hdD : ∀ c ∈ d, isDelim c = true := fun c hc => (hd c hc).2
    rcases hcase with ⟨x, rfl, hx⟩ | ⟨t, r, ht, htc, rfl, hr⟩
    · -- no further token
      refine ⟨d ++ x, [], bufsize, pre.length + d.length, ?_, by simpa using hpos, ?_, List.prefix_refl _⟩
      · rw [strtok_none_eval pre d x hd hx]
        simp [split_loop]
      · rw [cstr_append_of_nonNUL d x hdN, cstr_of_headD hx, List.append_nil]
        have := runs_append_delims d [] hdD
        simp only [List.append_nil] at this
        rw [this]; rfl
    · have htN : ∀ c ∈ t, c ≠ NUL := fun c hc => (htc c hc).1
      have htD : ∀ c ∈ t, isDelim c = false := fun c hc => (htc c hc).2
      have htake : tokens.take position = tokens := by
        rw [← hlen]; exact List.take_length _
      rcases hr with hr | ⟨c, r', rfl, hcN, hcD⟩
      · -- last token: the string ends right after it
        have hfuel' : r.length < fuel := by
          have : 0 < t.length := List.length_pos.mpr ht
          simp at hfuel; omega
        obtain ⟨r'', ptrs, bufsize', olds', hrun, hb, hstr, hpre⟩ :=
          ih (pre ++ d ++ t) r
            (if position + 1 ≥ bufsize then bufsize + LSH_TOK_BUFSIZE else bufsize)
            (position + 1) (tokens ++ [some (pre ++ d).length]) hfuel'
            (by unfold LSH_TOK_BUFSIZE; split <;> omega) (by simp [hlen])
        have hr'' : cstr r'' = [] := by
          rw [cstr_of_headD hr] at hpre
          exact List.prefix_nil.mp hpre
        refine ⟨d ++ (t ++ r''), (pre ++ d).length :: ptrs, bufsize', olds', ?_, ?_, ?_, ?_⟩
        · rw [strtok_last_eval pre d t r hd ht htc hr]
          simp only [split_loop, hpos, if_true, htake]
          rw [hrun]
          simp [Nat.add_assoc, Nat.add_comm 1]
        · simp; omega
        · have hmem : pre ++ (d ++ (t ++ r'')) = pre ++ d ++ t ++ r'' := by simp
          have h1 : cstrAt (pre ++ (d ++ (t ++ r''))) (pre ++ d).length = t := by
            have : pre ++ (d ++ (t ++ r'')) = (pre ++ d) ++ (t ++ r'') := by simp
            rw [this, cstrAt_append_length, cstr_append_of_nonNUL t r'' htN, hr'', List.append_nil]
          rw [List.map_cons, h1, hmem, hstr, cstr_of_headD hr]
          rw [cstr_append_of_nonNUL d _ hdN, cstr_append_of_nonNUL t r htN, cstr_of_headD hr,
            List.append_nil, runs_append_delims d t hdD]
          have := runs_tok_append t [] ht htD (by simp)
          simp only [List.append_nil] at this
          rw [this]
        · rw [cstr_append_of_nonNUL d _ hdN, cstr_append_of_nonNUL t r'' htN, hr'',
            cstr_append_of_nonNUL d _ hdN, cstr_append_of_nonNUL t r htN, cstr_of_headD hr]
      · -- a delimiter follows the token and is overwritten
        have hfuel' : r'.length < fuel := by
          simp at hfuel; omega
        obtain ⟨r'', ptrs, bufsize', olds', hrun, hb, hstr, hpre⟩ :=
          ih (pre ++ d ++ t ++ [NUL]) r'
            (if position + 1 ≥ bufsize then bufsize + LSH_TOK_BUFSIZE else bufsize)
            (position + 1) (tokens ++ [some (pre ++ d).length]) hfuel'
            (by unfold LSH_TOK_BUFSIZE; split <;> omega) (by simp [hlen])
        refine ⟨d ++ (t ++ NUL :: r''), (pre ++ d).length :: ptrs, bufsize', olds', ?_, ?_, ?_, ?_⟩
        · rw [strtok_more_eval pre d t r' c hd ht htc hcN hcD]
          simp only [split_loop, hpos, if_true, htake]
          rw [hrun]
          simp [Nat.add_assoc, Nat.add_comm 1]
        · simp; omega
        · have hmem : pre ++ (d ++ (t ++ NUL :: r'')) = pre ++ d ++ t ++ [NUL] ++ r'' := by simp
          have h1 : cstrAt (pre ++ (d ++ (t ++ NUL :: r''))) (pre ++ d).length = t := by
            have : pre ++ (d ++ (t ++ NUL :: r'')) = (pre ++ d) ++ (t ++ NUL :: r'') := by simp
            rw [this, cstrAt_append_length, cstr_append_of_nonNUL t _ htN,
              cstr_of_headD (x := NUL :: r'') rfl, List.append_nil]
          rw [List.map_cons, h1, hmem, hstr]
          have hc' : cstr (c :: r') = c :: cstr r' := by
            simpa using cstr_append_of_nonNUL [c] r' (by simpa using hcN)
          rw [cstr_append_of_nonNUL d _ hdN, cstr_append_of_nonNUL t _ htN, hc',
            runs_append_delims d _ hdD,
            runs_tok_append t (c :: cstr r') ht htD (by simpa using hcD),
            runs_cons_delim _ hcD]
        · have hc' : cstr (c :: r') = c :: cstr r' := by
            simpa using cstr_append_of_nonNUL [c] r' (by simpa using hcN)
          rw [cstr_append_of_nonNUL d _ hdN, cstr_append_of_nonNUL t _ htN,
            cstr_of_headD (x := NUL :: r'') rfl,
            cstr_append_of_nonNUL d _ hdN, cstr_append_of_nonNUL t _ htN, hc', List.append_nil]
          exact (List.prefix_append_right_inj d).mpr (List.prefix_append t _)

theorem read_argv_ptrs (mem : List Char) (ptrs : List Nat) :
    read_argv mem (ptrs.map some ++ [none]) = ptrs.map (fun p => String.mk (cstrAt mem p)) := by
  induction ptrs with
  | nil => rfl
  | cons p ptrs ih => simp [read_argv, ih]

/-- On every buffer `lsh_split_line` returns the runs of the C string the buffer
holds. -/
theorem lsh_split_line_eq_runs (line : List Char) :
    lsh_split_line line = Result.ok ((runs (cstr line)).map String.mk) := by
  obtain ⟨rest', ptrs, bufsize', olds', hrun, hb, hstr, _⟩ :=
    split_loop_spec (line.length + 1) [] line LSH_TOK_BUFSIZE 0 [] (Nat.lt_succ_self _)
      (by decide) rfl
  have h0 : strtok (some 0) LSH_TOK_DELIM { mem := line, olds := 0 } =
      strtok none LSH_TOK_DELIM ⟨[] ++ line, ([] : List Char).length⟩ := rfl
  unfold lsh_split_line
  rw [h0]
  simp only [hrun]
  simp only [Nat.zero_add, List.nil_append] at hb hstr ⊢
  rw [if_pos hb, List.take_of_length_le (by simp), read_argv_ptrs, ← hstr]
  simp

/-! ### Consequences for the tokenizer -/

theorem MaximalRuns.token_props {l : List Char} {toks : List (List Char)}
    (h : MaximalRuns l toks) :
    ∀ t ∈ toks, t ≠ [] ∧ (∀ c ∈ t, isDelim c = false) ∧ ∀ c ∈ t, c ∈ l := by
  induction h with
  | done d hd => intro t ht; simp at ht
  | run d t rest toks hd ht hnd hmax _ ih =>
    intro u hu
    rcases List.mem_cons.mp hu with rfl | hu
    · exact ⟨ht, hnd, fun c hc => by simp [hc]⟩
    · obtain ⟨h1, h2, h3⟩ := ih u hu
      exact ⟨h1, h2, fun c hc => by simp [h3 c hc]⟩

theorem cstr_nonNUL (l : List Char) : ∀ c ∈ cstr l, c ≠ NUL := by
  intro c hc
  have := List.mem_takeWhile_imp hc
  simpa using this

theorem cstr_terminated (line : List Char) (hline : NUL ∉ line) : cstr (line ++ [NUL]) = line := by
  rw [cstr_append_of_nonNUL line [NUL] (fun c hc h => hline (h ▸ hc)),
    cstr_of_headD (x := [NUL]) rfl, List.append_nil]

theorem runs_intercalate (toks : List (List Char))
    (h : ∀ t ∈ toks, t ≠ [] ∧ ∀ c ∈ t, isDelim c = false) :
    runs (List.intercalate [Char.ofNat 32] toks) = toks := by
  induction toks with
  | nil => rfl
  | cons t ts ih =>
    obtain ⟨ht, hnd⟩ := h t (List.mem_cons_self _ _)
    have ih' := ih (fun u hu => h u (List.mem_cons_of_mem _ hu))
    cases ts with
    | nil =>
      have := runs_tok_append t [] ht hnd (by simp)
      simpa [List.intercalate, runs] using this
    | cons u us =>
      have hsp : isDelim (Char.ofNat 32) = true := by decide
      have e : List.intercalate [Char.ofNat 32] (t :: u :: us) =
          t ++ Char.ofNat 32 :: List.intercalate [Char.ofNat 32] (u :: us) := by
        simp [List.intercalate]
      rw [e, runs_tok_append t _ ht hnd (by simpa using hsp), runs_cons_delim _ hsp, ih']

theorem intercalate_nonNUL (toks : List (List Char)) (h : ∀ t ∈ toks, ∀ c ∈ t, c ≠ NUL) :
    NUL ∉ List.intercalate [Char.ofNat 32] toks := by
  induction toks with
  | nil => simp [List.intercalate]
  | cons t ts ih =>
    have ih' := ih (fun u hu => h u (List.mem_cons_of_mem _ hu))
    have ht := h t (List.mem_cons_self _ _)
    cases ts with
    | nil =>
      intro hmem
      have : NUL ∈ t := by simpa [List.intercalate] using hmem
      exact ht NUL this rfl
    | cons u us =>
      intro hmem
      have e : List.intercalate [Char.ofNat 32] (t :: u :: us) =
          t ++ Char.ofNat 32 :: List.intercalate [Char.ofNat 32] (u :: us) := by
        simp [List.intercalate]
      rw [e] at hmem
      rcases List.mem_append.mp hmem with h1 | h1
      · exact ht NUL h1 rfl
      · rcases List.mem_cons.mp h1 with h2 | h2
        · exact absurd h2 (by decide)
        · exact ih' h2

/-- C1: for every line (a C string, so free of NUL) held in a terminated buffer,
`lsh_split_line` returns, for any length and any number of tokens, exactly the
maximal runs of non-delimiter characters of the line, from left to right: no
token is empty, none contains a delimiter, and the runs are determined by the
line alone. -/
theorem lsh_split_line_maximal_runs (line : List Char) (hline : NUL ∉ line) :
    ∃ toks : List (List Char),
      lsh_split_line (line ++ [NUL]) = Result.ok (toks.map String.mk) ∧
      MaximalRuns line toks ∧
      (∀ t ∈ toks, t ≠ [] ∧ ∀ c ∈ t, isDelim c = false) ∧
      (∀ other : List (List Char), MaximalRuns line other → other = toks) := by
  refine ⟨runs line, ?_, maximalRuns_runs line, ?_, fun other h => h.eq_runs⟩
  · rw [lsh_split_line_eq_runs, cstr_terminated line hline]
  · intro t ht
    obtain ⟨h1, h2, _⟩ := (maximalRuns_runs line).token_props t ht
    exact ⟨h1, h2⟩

/-- Witness for C1 on the line `"  ls   -la  "`, which yields exactly `ls` and `-la`, and on a
line of seventy tokens, more than the initial capacity of the token array. -/
theorem lsh_split_line_maximal_runs_witness :
    NUL ∉ "  ls   -la  ".data ∧
    (∃ toks : List (List Char),
      lsh_split_line ("  ls   -la  ".data ++ [NUL]) = Result.ok (toks.map String.mk) ∧
      MaximalRuns "  ls   -la  ".data toks ∧
      (∀ t ∈ toks, t ≠ [] ∧ ∀ c ∈ t, isDelim c = false) ∧
      (∀ other : List (List Char), MaximalRuns "  ls   -la  ".data other → other = toks)) ∧
    lsh_split_line ("  ls   -la  ".data ++ [NUL]) = Result.ok ["ls", "-la"] ∧
    lsh_split_line ((List.replicate 70 "a ".data).flatten ++ [NUL]) =
      Result.ok (List.replicate 70 "a") :=
  ⟨by decide, lsh_split_line_maximal_runs _ (by decide), by decide, by decide⟩

/-- C8: a line that is empty or holds only delimiters is split into the empty
argument vector, and `lsh_execute` on the empty vector returns 1 and leaves
the world as it was: nothing is written, no process is created, no builtin
runs. -/
theorem blank_line_is_noop (line : List Char) (hblank : ∀ c ∈ line, isDelim c = true) :
    lsh_split_line (line ++ [NUL]) = Result.ok [] ∧
    ∀ (os : OS) (w : World), lsh_execute os [] w = Run.returned 1 w := by
  constructor
  · have hN : NUL ∉ line := fun h => by
      have := hblank NUL h
      rw [isDelim_NUL] at this
      exact absurd this (by decide)
    rw [lsh_split_line_eq_runs, cstr_terminated line hN]
    have := runs_append_delims line [] hblank
    simp only [List.append_nil] at this
    rw [this]; rfl
  · intro os w; rfl

/-- Witness for C8 on a line of a space, a tab and a space. -/
theorem blank_line_is_noop_witness :
    (∀ c ∈ [Char.ofNat 32, Char.ofNat 9, Char.ofNat 32], isDelim c = true) ∧
    lsh_split_line ([Char.ofNat 32, Char.ofNat 9, Char.ofNat 32] ++ [NUL]) = Result.ok [] ∧
    ∀ (os : OS) (w : World), lsh_execute os [] w = Run.returned 1 w :=
  ⟨by decide, blank_line_is_noop _ (by decide)⟩

/-- C9: for every line buffer, joining the tokens of `lsh_split_line` with
single spaces and splitting the joined line again gives the same argument
vector. -/
theorem split_join_roundtrip (line : List Char) :
    ∃ args : List String,
      lsh_split_line (line ++ [NUL]) = Result.ok args ∧
      lsh_split_line (join_args args ++ [NUL]) = Result.ok args := by
  refine ⟨(runs (cstr (line ++ [NUL]))).map String.mk, lsh_split_line_eq_runs _, ?_⟩
  have hprops := (maximalRuns_runs (cstr (line ++ [NUL]))).token_props
  have hjoin : join_args ((runs (cstr (line ++ [NUL]))).map String.mk) =
      List.intercalate [Char.ofNat 32] (runs (cstr (line ++ [NUL]))) := by
    simp [join_args, Function.comp_def]
  have hN : NUL ∉ List.intercalate [Char.ofNat 32] (runs (cstr (line ++ [NUL]))) :=
    intercalate_nonNUL _ (fun t ht c hc => cstr_nonNUL _ c ((hprops t ht).2.2 c hc))
  rw [lsh_split_line_eq_runs, hjoin, cstr_terminated _ hN,
    runs_intercalate _ (fun t ht => ⟨(hprops t ht).1, (hprops t ht).2.1⟩)]

/-! ### The dispatcher and the launcher -/

theorem lsh_execute_cons (os : OS) (cmd : String) (rest : List String) (w : World) :
    lsh_execute os (cmd :: rest) w =
      if cmd = "cd" then lsh_cd os (cmd :: rest) w
      else if cmd = "help" then lsh_help (cmd :: rest) w
      else if cmd = "exit" then lsh_exit (cmd :: rest) w
      else lsh_launch os (cmd :: rest) w := by
  simp only [lsh_execute, List.head?_cons, builtin_str, builtin_func, List.zip_cons_cons,
    List.find?_cons, List.zip_nil_right, List.find?_nil, beq_iff_eq]
  by_cases h1 : cmd = "cd"
  · simp [h1]
  · by_cases h2 : cmd = "help"
    · simp [h2]
    · by_cases h3 : cmd = "exit"
      · simp [h3]
      · have e1 : (cmd == "cd") = false := by simpa using h1
        have e2 : (cmd == "help") = false := by simpa using h2
        have e3 : (cmd == "exit") = false := by simpa using h3
        simp [h1, h2, h3, e1, e2, e3]

theorem wait_loop_terminal (pre post : List WStatus) (t : WStatus) (seen : List WStatus)
    (hpre : ∀ s ∈ pre, WIFEXITED s = false ∧ WIFSIGNALED s = false)
    (ht : WIFEXITED t = true ∨ WIFSIGNALED t = true) :
    wait_loop (pre ++ t :: post) seen = some (seen ++ pre ++ [t]) := by
  induction pre generalizing seen with
  | nil =>
    rcases ht with h | h <;> simp [wait_loop, h]
  | cons s pre ih =>
    have hs := hpre s (List.mem_cons_self _ _)
    have := ih (seen ++ [s]) (fun a ha => hpre a (List.mem_cons_of_mem _ ha))
    simp [wait_loop, hs.1, hs.2, this]

theorem wait_loop_never (l seen : List WStatus)
    (hl : ∀ s ∈ l, WIFEXITED s = false ∧ WIFSIGNALED s = false) :
    wait_loop l seen = none := by
  induction l generalizing seen with
  | nil => rfl
  | cons s l ih =>
    have hs := hl s (List.mem_cons_self _ _)
    simp [wait_loop, hs.1, hs.2, ih (seen ++ [s]) (fun a ha => hl a (List.mem_cons_of_mem _ ha))]

theorem first_terminal (l : List WStatus) :
    (∀ s ∈ l, WIFEXITED s = false ∧ WIFSIGNALED s = false) ∨
    ∃ pre t post, l = pre ++ t :: post ∧
      (∀ s ∈ pre, WIFEXITED s = false ∧ WIFSIGNALED s = false) ∧
      (WIFEXITED t = true ∨ WIFSIGNALED t = true) := by
  induction l with
  | nil => left; simp
  | cons s l ih =>
    by_cases hs : WIFEXITED s = true ∨ WIFSIGNALED s = true
    · right; exact ⟨[], s, l, rfl, by simp, hs⟩
    · have hs' : WIFEXITED s = false ∧ WIFSIGNALED s = false := by
        constructor
        · cases h : WIFEXITED s <;> simp_all
        · cases h : WIFSIGNALED s <;> simp_all
      rcases ih with h | ⟨pre, t, post, rfl, hpre, ht⟩
      · left
        intro a ha
        rcases List.mem_cons.mp ha with rfl | ha
        · exact hs'
        · exact h a ha
      · right
        refine ⟨s :: pre, t, post, rfl, ?_, ht⟩
        intro a ha
        rcases List.mem_cons.mp ha with rfl | ha
        · exact hs'
        · exact hpre a ha

theorem lsh_launch_fork_failed (os : OS) (args : List String) (w : World) (errno : Nat)
    (hfork : os.fork w.forks = Except.error errno) :
    lsh_launch os args w = Run.returned 1
      { w with forks := w.forks + 1, stderr := w.stderr ++ [perror os "lsh" errno] } := by
  simp [lsh_launch, hfork]

theorem lsh_launch_terminal (os : OS) (args : List String) (w : World) (pid : Nat)
    (pre post : List WStatus) (t : WStatus)
    (hfork : os.fork w.forks = Except.ok pid)
    (hsplit : os.waitpid w.forks = pre ++ t :: post)
    (hpre : ∀ s ∈ pre, WIFEXITED s = false ∧ WIFSIGNALED s = false)
    (ht : WIFEXITED t = true ∨ WIFSIGNALED t = true) :
    lsh_launch os args w = Run.returned 1
      { w with forks := w.forks + 1, children := w.children ++ [(args.headD "", args)],
               waits := w.waits ++ (pre ++ [t]) } := by
  have := wait_loop_terminal pre post t [] hpre ht
  simp [lsh_launch, hfork, hsplit, this]

theorem lsh_launch_never (os : OS) (args : List String) (w : World) (pid : Nat)
    (hfork : os.fork w.forks = Except.ok pid)
    (hall : ∀ s ∈ os.waitpid w.forks, WIFEXITED s = false ∧ WIFSIGNALED s = false) :
    lsh_launch os args w = Run.blocked
      { w with forks := w.forks + 1, children := w.children ++ [(args.headD "", args)],
               waits := w.waits ++ os.waitpid w.forks } := by
  have := wait_loop_never (os.waitpid w.forks) [] hall
  simp [lsh_launch, hfork, this]

theorem lsh_execute_external (os : OS) (args : List String) (w : World) (cmd : String)
    (hhead : args.head? = some cmd) (hcmd : cmd ∉ builtin_str) :
    lsh_execute os args w = lsh_launch os args w := by
  cases args with
  | nil => simp at hhead
  | cons c rest =>
    simp only [List.head?_cons, Option.some.injEq] at hhead
    subst hhead
    simp only [builtin_str, List.mem_cons, List.mem_singleton, List.not_mem_nil, or_false,
      not_or] at hcmd
    rw [lsh_execute_cons, if_neg hcmd.1, if_neg hcmd.2.1, if_neg hcmd.2.2]

theorem lsh_cd_no_argument (os : OS) (args : List String) (w : World)
    (harg : args[1]? = none) :
    lsh_cd os args w = Run.returned 1
      { w with ran := w.ran ++ ["cd"],
               stderr := w.stderr ++ ["lsh: expected argument to \"cd\"\n"] } := by
  simp [lsh_cd, harg]

theorem lsh_cd_chdir_failed (os : OS) (args : List String) (w : World) (path : String)
    (errno : Nat) (harg : args[1]? = some path)
    (hfail : os.chdir w.cwd path = Except.error errno) :
    lsh_cd os args w = Run.returned 1
      { w with ran := w.ran ++ ["cd"], stderr := w.stderr ++ [perror os "lsh" errno] } := by
  simp [lsh_cd, harg, hfail]

theorem lsh_cd_chdir_ok (os : OS) (args : List String) (w : World) (path dir : String)
    (harg : args[1]? = some path) (hok : os.chdir w.cwd path = Except.ok dir) :
    lsh_cd os args w = Run.returned 1 { w with ran := w.ran ++ ["cd"], cwd := dir } := by
  simp [lsh_cd, harg, hok]

theorem lsh_cd_returns (os : OS) (args : List String) (w : World) :
    ∃ w', lsh_cd os args w = Run.returned 1 w' ∧ w'.stdin = w.stdin ∧
      w'.dispatched = w.dispatched ∧ w'.forks = w.forks ∧ w'.children = w.children := by
  cases harg : args[1]? with
  | none => exact ⟨_, lsh_cd_no_argument os args w harg, rfl, rfl, rfl, rfl⟩
  | some path =>
    cases hch : os.chdir w.cwd path with
    | error errno => exact ⟨_, lsh_cd_chdir_failed os args w path errno harg hch, rfl, rfl, rfl, rfl⟩
    | ok dir => exact ⟨_, lsh_cd_chdir_ok os args w path dir harg hch, rfl, rfl, rfl, rfl⟩

theorem lsh_launch_cases (os : OS) (args : List String) (w : World) :
    (∃ errno, os.fork w.forks = Except.error errno ∧
      lsh_launch os args w = Run.returned 1
        { w with forks := w.forks + 1, stderr := w.stderr ++ [perror os "lsh" errno] }) ∨
    (∃ pid pre t post, os.fork w.forks = Except.ok pid ∧ os.waitpid w.forks = pre ++ t :: post ∧
      (∀ s ∈ pre, WIFEXITED s = false ∧ WIFSIGNALED s = false) ∧
      (WIFEXITED t = true ∨ WIFSIGNALED t = true) ∧
      lsh_launch os args w = Run.returned 1
        { w with forks := w.forks + 1, children := w.children ++ [(args.headD "", args)],
                 waits := w.waits ++ (pre ++ [t]) }) ∨
    (∃ pid, os.fork w.forks = Except.ok pid ∧
      (∀ s ∈ os.waitpid w.forks, WIFEXITED s = false ∧ WIFSIGNALED s = false) ∧
      lsh_launch os args w = Run.blocked
        { w with forks := w.forks + 1, children := w.children ++ [(args.headD "", args)],
                 waits := w.waits ++ os.waitpid w.forks }) := by
  cases hfork : os.fork w.forks with
  | error errno => left; exact ⟨errno, rfl, lsh_launch_fork_failed os args w errno hfork⟩
  | ok pid =>
    right
    rcases first_terminal (os.waitpid w.forks) with hall | ⟨pre, t, post, hsplit, hpre, ht⟩
    · right; exact ⟨pid, rfl, hall, lsh_launch_never os args w pid hfork hall⟩
    · left
      exact ⟨pid, pre, t, post, rfl, hsplit, hpre, ht,
        lsh_launch_terminal os args w pid pre post t hfork hsplit hpre ht⟩

/-- C2: `lsh_execute` returns 0 exactly when the first element of the vector is
`exit`, whatever follows it.  For every other vector it returns 1: at once for
the empty vector and the other builtins, and for an external command when
process creation fails or as soon as the child has exited or been killed,
whatever the exit code or signal; the call is still waiting only while no such
status has been reported. -/
theorem lsh_execute_status (os : OS) (args : List String) (w : World) :
    ((∃ w', lsh_execute os args w = Run.returned 0 w') ↔ args.head? = some "exit") ∧
    (args.head? ≠ some "exit" →
      (∃ w', lsh_execute os args w = Run.returned 1 w') ∨
      ((∃ w', lsh_execute os args w = Run.blocked w') ∧
        ∀ s ∈ os.waitpid w.forks, WIFEXITED s = false ∧ WIFSIGNALED s = false)) := by
  have key : args.head? ≠ some "exit" →
      (∃ w', lsh_execute os args w = Run.returned 1 w') ∨
      ((∃ w', lsh_execute os args w = Run.blocked w') ∧
        ∀ s ∈ os.waitpid w.forks, WIFEXITED s = false ∧ WIFSIGNALED s = false) := by
    intro hne
    cases args with
    | nil => left; exact ⟨w, rfl⟩
    | cons cmd rest =>
      have hne' : cmd ≠ "exit" := fun h => hne (by simp [h])
      rw [lsh_execute_cons]
      by_cases h1 : cmd = "cd"
      · rw [if_pos h1]
        left
        obtain ⟨w', hw', _⟩ := lsh_cd_returns os (cmd :: rest) w
        exact ⟨w', hw'⟩
      · rw [if_neg h1]
        by_cases h2 : cmd = "help"
        · rw [if_pos h2]; left; exact ⟨_, rfl⟩
        · rw [if_neg h2, if_neg hne']
          rcases lsh_launch_cases os (cmd :: rest) w with ⟨e, _, h⟩ | ⟨p, pre, t, post, _, _, _, _, h⟩ |
              ⟨p, _, hall, h⟩
          · left; exact ⟨_, h⟩
          · left; exact ⟨_, h⟩
          · right; exact ⟨⟨_, h⟩, hall⟩
  refine ⟨⟨?_, ?_⟩, key⟩
  · rintro ⟨w', hw'⟩
    by_contra hne
    rcases key hne with ⟨w1, h1⟩ | ⟨⟨w1, h1⟩, _⟩
    · rw [h1] at hw'; cases hw'
    · rw [h1] at hw'; cases hw'
  · intro h
    cases args with
    | nil => simp at h
    | cons cmd rest =>
      simp only [List.head?_cons, Option.some.injEq] at h
      subst h
      exact ⟨_, rfl⟩

/-- Witness for C2: `exit` alone and `exit now` return 0, and `ls`, whose child
is stopped twice and then exits with code 3, returns 1. -/
theorem lsh_execute_status_witness :
    (∃ w', lsh_execute demo_os ["exit"] demo_world = Run.returned 0 w') ∧
    (∃ w', lsh_execute demo_os ["exit", "now"] demo_world = Run.returned 0 w') ∧
    (["ls"].head? ≠ some "exit" ∧
      ((∃ w', lsh_execute demo_os ["ls"] demo_world = Run.returned 1 w') ∨
       ((∃ w', lsh_execute demo_os ["ls"] demo_world = Run.blocked w') ∧
        ∀ s ∈ demo_os.waitpid demo_world.forks, WIFEXITED s = false ∧ WIFSIGNALED s = false))) ∧
    lsh_execute demo_os ["ls"] demo_world = Run.returned 1
      { demo_world with
        forks := 1
        children := [("ls", ["ls"])]
        waits := [WStatus.stopped 19, WStatus.stopped 19, WStatus.exited 3] } :=
  ⟨(lsh_execute_status demo_os ["exit"] demo_world).1.mpr rfl,
   (lsh_execute_status demo_os ["exit", "now"] demo_world).1.mpr rfl,
   ⟨by decide, (lsh_execute_status demo_os ["ls"] demo_world).2 (by decide)⟩,
   by decide⟩

theorem lsh_execute_builtin_frame (os : OS) (args : List String) (w : World)
    (hb : ¬ ∃ cmd, args.head? = some cmd ∧ cmd ∉ builtin_str) :
    ∃ status w', lsh_execute os args w = Run.returned status w' ∧ w'.stdin = w.stdin ∧
      w'.dispatched = w.dispatched ∧ w'.forks = w.forks ∧ w'.children = w.children := by
  cases args with
  | nil => exact ⟨1, w, rfl, rfl, rfl, rfl, rfl⟩
  | cons cmd rest =>
    have hmem : cmd ∈ builtin_str := by
      by_contra h
      exact hb ⟨cmd, rfl, h⟩
    simp only [builtin_str, List.mem_cons, List.mem_singleton, List.not_mem_nil, or_false] at hmem
    rw [lsh_execute_cons]
    rcases hmem with h | h | h
    · rw [if_pos h]
      obtain ⟨w', h1, h2⟩ := lsh_cd_returns os (cmd :: rest) w
      exact ⟨1, w', h1, h2⟩
    · subst h
      exact ⟨1, _, rfl, rfl, rfl, rfl, rfl⟩
    · subst h
      exact ⟨0, _, rfl, rfl, rfl, rfl, rfl⟩

/-- C3: `lsh_execute` calls `fork`, and does so once, exactly when the vector is
non-empty and its first element equals none of `cd`, `help`, `exit`.  In that
case the call is the call `lsh_launch(args)`, no builtin handler runs, the
working directory and standard output stay as they were, and the child that a
successful `fork` creates is the only new process and executes `args[0]` with
the vector `args` unchanged; when `fork` fails no process is created.  In every
other case `fork` is not called and no process is created. -/
theorem lsh_execute_spawns (os : OS) (args : List String) (w : World) :
    ((lsh_execute os args w).world.forks = w.forks + 1 ↔
        ∃ cmd, args.head? = some cmd ∧ cmd ∉ builtin_str) ∧
    ((¬ ∃ cmd, args.head? = some cmd ∧ cmd ∉ builtin_str) →
        (lsh_execute os args w).world.forks = w.forks ∧
        (lsh_execute os args w).world.children = w.children) ∧
    (∀ cmd, args.head? = some cmd → cmd ∉ builtin_str →
        lsh_execute os args w = lsh_launch os args w ∧
        (lsh_execute os args w).world.ran = w.ran ∧
        (lsh_execute os args w).world.cwd = w.cwd ∧
        (lsh_execute os args w).world.stdout = w.stdout ∧
        (∀ pid, os.fork w.forks = Except.ok pid →
          (lsh_execute os args w).world.children = w.children ++ [(cmd, args)]) ∧
        (∀ errno, os.fork w.forks = Except.error errno →
          (lsh_execute os args w).world.children = w.children)) := by
  have hext : ∀ cmd, args.head? = some cmd → cmd ∉ builtin_str →
      lsh_execute os args w = lsh_launch os args w ∧
      (lsh_execute os args w).world.forks = w.forks + 1 ∧
      (lsh_execute os args w).world.ran = w.ran ∧
      (lsh_execute os args w).world.cwd = w.cwd ∧
      (lsh_execute os args w).world.stdout = w.stdout ∧
      (∀ pid, os.fork w.forks = Except.ok pid →
        (lsh_execute os args w).world.children = w.children ++ [(cmd, args)]) ∧
      (∀ errno, os.fork w.forks = Except.error errno →
        (lsh_execute os args w).world.children = w.children) := by
    intro cmd hhead hcmd
    rw [lsh_execute_external os args w cmd hhead hcmd]
    refine ⟨rfl, ?_⟩
    rcases lsh_launch_cases os args w with ⟨e, hf, h⟩ | ⟨p, pre, t, post, hf, _, _, _, h⟩ |
        ⟨p, hf, _, h⟩
    · rw [h]
      refine ⟨rfl, rfl, rfl, rfl, ?_, fun _ _ => rfl⟩
      intro pid hpid; rw [hf] at hpid; cases hpid
    · rw [h]
      refine ⟨rfl, rfl, rfl, rfl, fun _ _ => by simp [Run.world, hhead], ?_⟩
      intro errno he; rw [hf] at he; cases he
    · rw [h]
      refine ⟨rfl, rfl, rfl, rfl, fun _ _ => by simp [Run.world, hhead], ?_⟩
      intro errno he; rw [hf] at he; cases he
  have hint : (¬ ∃ cmd, args.head? = some cmd ∧ cmd ∉ builtin_str) →
      (lsh_execute os args w).world.forks = w.forks ∧
      (lsh_execute os args w).world.children = w.children := by
    intro hb
    obtain ⟨status, w', h, _, _, hf, hc⟩ := lsh_execute_builtin_frame os args w hb
    rw [h]
    exact ⟨hf, hc⟩
  refine ⟨⟨?_, ?_⟩, hint, ?_⟩
  · intro hforks
    by_contra hb
    have := (hint hb).1
    omega
  · rintro ⟨cmd, hhead, hcmd⟩
    exact (hext cmd hhead hcmd).2.1
  · intro cmd hhead hcmd
    obtain ⟨h1, _, h3, h4, h5, h6, h7⟩ := hext cmd hhead hcmd
    exact ⟨h1, h3, h4, h5, h6, h7⟩

/-- Witness for C3: `cdx -v` is no builtin, so one child is created, for the
program `cdx` with the vector unchanged; and `CD` and `ex` are no builtins
either. -/
theorem lsh_execute_spawns_witness :
    (["cdx", "-v"].head? = some "cdx" ∧ "cdx" ∉ builtin_str ∧
      demo_os.fork demo_world.forks = Except.ok 4242 ∧
      (lsh_execute demo_os ["cdx", "-v"] demo_world).world.children =
        demo_world.children ++ [("cdx", ["cdx", "-v"])] ∧
      (lsh_execute demo_os ["cdx", "-v"] demo_world).world.ran = demo_world.ran) ∧
    (lsh_execute demo_os ["CD"] demo_world).world.forks = demo_world.forks + 1 ∧
    (lsh_execute demo_os ["ex"] demo_world).world.forks = demo_world.forks + 1 ∧
    ((lsh_execute demo_os ["help"] demo_world).world.forks = demo_world.forks ∧
      (lsh_execute demo_os ["help"] demo_world).world.children = demo_world.children) :=
  ⟨⟨rfl, by decide, rfl,
    ((lsh_execute_spawns demo_os ["cdx", "-v"] demo_world).2.2 "cdx" rfl (by decide)).2.2.2.2.1
      4242 rfl,
    ((lsh_execute_spawns demo_os ["cdx", "-v"] demo_world).2.2 "cdx" rfl (by decide)).2.1⟩,
   (lsh_execute_spawns demo_os ["CD"] demo_world).1.mpr ⟨"CD", rfl, by decide⟩,
   (lsh_execute_spawns demo_os ["ex"] demo_world).1.mpr ⟨"ex", rfl, by decide⟩,
   (lsh_execute_spawns demo_os ["help"] demo_world).2.1 (by decide)⟩

/-- C5: in the shell process, once `fork` has given a child, `lsh_launch` goes
on calling `waitpid` while the reported status is neither exited nor
signaled, in particular while it is stopped; at the first status that is
exited (with any code) or signaled it stops waiting and returns 1, having
received exactly the statuses up to that one; and while no such status has
been reported it does not return. -/
theorem lsh_launch_waits (os : OS) (args : List String) (w : World) (pid : Nat)
    (hfork : os.fork w.forks = Except.ok pid) :
    (∀ (pre post : List WStatus) (t : WStatus), os.waitpid w.forks = pre ++ t :: post →
      (∀ s ∈ pre, WIFEXITED s = false ∧ WIFSIGNALED s = false) →
      (WIFEXITED t = true ∨ WIFSIGNALED t = true) →
      lsh_launch os args w = Run.returned 1
        { w with forks := w.forks + 1, children := w.children ++ [(args.headD "", args)],
                 waits := w.waits ++ (pre ++ [t]) }) ∧
    ((∀ s ∈ os.waitpid w.forks, WIFEXITED s = false ∧ WIFSIGNALED s = false) →
      lsh_launch os args w = Run.blocked
        { w with forks := w.forks + 1, children := w.children ++ [(args.headD "", args)],
                 waits := w.waits ++ os.waitpid w.forks }) ∧
    (∀ (status : Nat) (w' : World), lsh_launch os args w = Run.returned status w' →
      status = 1 ∧ ∃ (pre : List WStatus) (t : WStatus),
        w'.waits = w.waits ++ (pre ++ [t]) ∧
        (∀ s ∈ pre, WIFEXITED s = false ∧ WIFSIGNALED s = false) ∧
        (WIFEXITED t = true ∨ WIFSIGNALED t = true)) := by
  refine ⟨fun pre post t hsplit hpre ht =>
      lsh_launch_terminal os args w pid pre post t hfork hsplit hpre ht,
    fun hall => lsh_launch_never os args w pid hfork hall, ?_⟩
  intro status w' hret
  rcases lsh_launch_cases os args w with ⟨e, hf, _⟩ | ⟨p, pre, t, post, _, _, hpre, ht, h⟩ |
      ⟨p, _, _, h⟩
  · rw [hfork] at hf; cases hf
  · rw [h] at hret
    cases hret
    exact ⟨rfl, pre, t, rfl, hpre, ht⟩
  · rw [h] at hret; cases hret

/-- Witness for C5: a child stopped twice and then exited with code 3 is waited
for three times; a child that is only ever stopped leaves the shell waiting. -/
theorem lsh_launch_waits_witness :
    demo_os.fork demo_world.forks = Except.ok 4242 ∧
    lsh_launch demo_os ["sleep", "9"] demo_world = Run.returned 1
      { demo_world with
        forks := demo_world.forks + 1
        children := demo_world.children ++ [("sleep", ["sleep", "9"])]
        waits := demo_world.waits ++
          ([WStatus.stopped 19, WStatus.stopped 19] ++ [WStatus.exited 3]) } ∧
    stuck_os.fork demo_world.forks = Except.ok 4242 ∧
    lsh_launch stuck_os ["sleep", "9"] demo_world = Run.blocked
      { demo_world with
        forks := demo_world.forks + 1
        children := demo_world.children ++ [("sleep", ["sleep", "9"])]
        waits := demo_world.waits ++ stuck_os.waitpid demo_world.forks } :=
  ⟨rfl,
   (lsh_launch_waits demo_os ["sleep", "9"] demo_world 4242 rfl).1
     [WStatus.stopped 19, WStatus.stopped 19] [] (WStatus.exited 3) rfl (by decide) (by decide),
   rfl,
   (lsh_launch_waits stuck_os ["sleep", "9"] demo_world 4242 rfl).2.1 (by decide)⟩

/-- C7: when the first element is `cd` and the change of directory does not
succeed (there is no second element, or `chdir` on it fails), `lsh_execute`
returns 1 and the only change to the world is one line added to the error
stream: the working directory and standard output are as before and no
process is created.  The line contains `expected argument` when the path is
missing and is the `perror` line of the error number otherwise. -/
theorem lsh_execute_cd_failure (os : OS) (args : List String) (w : World)
    (hcd : args.head? = some "cd")
    (hfail : args[1]? = none ∨
      ∃ path errno, args[1]? = some path ∧ os.chdir w.cwd path = Except.error errno) :
    ∃ msg : String,
      lsh_execute os args w = Run.returned 1
        { w with stderr := w.stderr ++ [msg], ran := w.ran ++ ["cd"] } ∧
      (args[1]? = none → "expected argument".data <:+: msg.data) ∧
      (∀ path errno, args[1]? = some path → os.chdir w.cwd path = Except.error errno →
        msg = "lsh: " ++ os.strerror errno ++ "\n") := by
  cases args with
  | nil => simp at hcd
  | cons cmd rest =>
    simp only [List.head?_cons, Option.some.injEq] at hcd
    subst hcd
    rw [lsh_execute_cons, if_pos rfl]
    rcases hfail with hnone | ⟨path, errno, hsome, herr⟩
    · refine ⟨"lsh: expected argument to \"cd\"\n", lsh_cd_no_argument os _ w hnone, ?_, ?_⟩
      · intro _
        exact ⟨"lsh: ".data, " to \"cd\"\n".data, by decide⟩
      · intro path errno hp
        rw [hnone] at hp; cases hp
    · refine ⟨perror os "lsh" errno, lsh_cd_chdir_failed os _ w path errno hsome herr, ?_, ?_⟩
      · intro hnone
        rw [hnone] at hsome; cases hsome
      · intro path' errno' hp he
        rw [hsome] at hp
        cases hp
        rw [herr] at he
        cases he
        rfl

/-- Witness for C7: `cd` without a path, and `cd` into a directory that does not exist. -/
theorem lsh_execute_cd_failure_witness :
    (["cd"].head? = some "cd" ∧ (["cd"] : List String)[1]? = none ∧
      ∃ msg : String,
        lsh_execute demo_os ["cd"] demo_world = Run.returned 1
          { demo_world with stderr := demo_world.stderr ++ [msg], ran := demo_world.ran ++ ["cd"] } ∧
        ((["cd"] : List String)[1]? = none → "expected argument".data <:+: msg.data) ∧
        (∀ path errno, (["cd"] : List String)[1]? = some path →
          demo_os.chdir demo_world.cwd path = Except.error errno →
          msg = "lsh: " ++ demo_os.strerror errno ++ "\n")) ∧
    (∃ msg : String,
        lsh_execute demo_os ["cd", "/nonexistent-path-xyz"] demo_world = Run.returned 1
          { demo_world with stderr := demo_world.stderr ++ [msg], ran := demo_world.ran ++ ["cd"] } ∧
        ((["cd", "/nonexistent-path-xyz"] : List String)[1]? = none →
          "expected argument".data <:+: msg.data) ∧
        (∀ path errno, (["cd", "/nonexistent-path-xyz"] : List String)[1]? = some path →
          demo_os.chdir demo_world.cwd path = Except.error errno →
          msg = "lsh: " ++ demo_os.strerror errno ++ "\n")) :=
  ⟨⟨rfl, rfl, lsh_execute_cd_failure demo_os ["cd"] demo_world rfl (Or.inl rfl)⟩,
   lsh_execute_cd_failure demo_os ["cd", "/nonexistent-path-xyz"] demo_world rfl
     (Or.inr ⟨"/nonexistent-path-xyz", 2, rfl, rfl⟩)⟩

/-! ### The line reader -/

theorem read_loop_line (line rest : List Char) (bufsize : Nat) :
    ∀ (position : Nat) (buffer : List Char), Char.ofNat 10 ∉ line →
      position + line.length < bufsize → buffer.length = position →
      read_loop (line ++ Char.ofNat 10 :: rest) bufsize position buffer =
        Result.ok (buffer ++ line ++ [NUL], rest) := by
  induction line with
  | nil =>
    intro position buffer _ hfit hbuf
    have : buffer.take position = buffer := by rw [← hbuf]; exact List.take_length _
    simp only [List.nil_append, read_loop, if_true, List.append_nil]
    rw [if_pos (by simpa using hfit), this]
  | cons c line ih =>
    intro position buffer hnl hfit hbuf
    have hc : c ≠ Char.ofNat 10 := fun h => hnl (by simp [h])
    have hnl' : Char.ofNat 10 ∉ line := fun h => hnl (List.mem_cons_of_mem _ h)
    have htake : buffer.take position = buffer := by rw [← hbuf]; exact List.take_length _
    have hpos : position < bufsize := by simp at hfit; omega
    rw [List.cons_append, read_loop, if_neg hc, if_pos hpos, htake]
    rw [ih (position + 1) (buffer ++ [c]) hnl' (by simp at hfit; omega) (by simp [hbuf])]
    simp

theorem read_loop_overflow (line rest : List Char) (bufsize : Nat) :
    ∀ (position : Nat) (buffer : List Char), Char.ofNat 10 ∉ line →
      bufsize ≤ position + line.length → position ≤ bufsize →
      read_loop (line ++ Char.ofNat 10 :: rest) bufsize position buffer =
        Result.outOfBounds bufsize bufsize := by
  induction line with
  | nil =>
    intro position buffer _ hov hle
    have : position = bufsize := by simp at hov; omega
    subst this
    simp [read_loop]
  | cons c line ih =>
    intro position buffer hnl hov hle
    have hc : c ≠ Char.ofNat 10 := fun h => hnl (by simp [h])
    have hnl' : Char.ofNat 10 ∉ line := fun h => hnl (List.mem_cons_of_mem _ h)
    rw [List.cons_append, read_loop, if_neg hc]
    by_cases hpos : position < bufsize
    · rw [if_pos hpos]
      exact ih (position + 1) _ hnl' (by simp at hov; omega) (by omega)
    · rw [if_neg hpos]
      have : position = bufsize := by omega
      rw [this]

theorem lsh_read_line_fits (line rest : List Char) (hnl : Char.ofNat 10 ∉ line)
    (hfit : line.length < LSH_RL_BUFSIZE) :
    lsh_read_line (line ++ Char.ofNat 10 :: rest) = Result.ok (line ++ [NUL], rest) := by
  have := read_loop_line line rest LSH_RL_BUFSIZE 0 [] hnl (by simpa using hfit) rfl
  simpa [lsh_read_line] using this

theorem lsh_read_line_too_long (line rest : List Char) (hnl : Char.ofNat 10 ∉ line)
    (hlong : LSH_RL_BUFSIZE ≤ line.length) :
    lsh_read_line (line ++ Char.ofNat 10 :: rest) =
      Result.outOfBounds LSH_RL_BUFSIZE LSH_RL_BUFSIZE :=
  read_loop_overflow line rest LSH_RL_BUFSIZE 0 [] hnl (by simpa using hlong) (Nat.zero_le _)

/-- C10, evaluated on the code: a line of 1023 characters is returned whole,
but for a line of 1024 characters the terminator is stored at index 1024 of a
buffer whose capacity is still 1024. -/
theorem lsh_read_line_overflows_at_1024 :
    lsh_read_line (List.replicate 1023 'a' ++ [Char.ofNat 10]) =
      Result.ok (List.replicate 1023 'a' ++ [NUL], []) ∧
    lsh_read_line (List.replicate 1024 'a' ++ [Char.ofNat 10]) =
      Result.outOfBounds 1024 1024 := by
  constructor
  · exact lsh_read_line_fits (List.replicate 1023 'a') []
      (fun h => absurd (List.eq_of_mem_replicate h) (by decide))
      (by rw [List.length_replicate]; decide)
  · exact lsh_read_line_too_long (List.replicate 1024 'a') []
      (fun h => absurd (List.eq_of_mem_replicate h) (by decide))
      (by rw [List.length_replicate]; decide)

/-! ### The loop -/

theorem lsh_loop_body_eof (os : OS) (w : World) :
    lsh_loop_body os { w with stdin := [] } = Run.returned 1
      { w with stdin := [], stdout := w.stdout ++ [os.pw_name ++ "> "],
               dispatched := w.dispatched ++ [[]] } := by
  have h1 : lsh_read_line [] = Result.ok ([NUL], []) := by decide
  have h2 : lsh_split_line [NUL] = Result.ok [] := by decide
  simp [lsh_loop_body, h1, h2, lsh_execute]

/-- C6, evaluated on the code: at end-of-input `lsh_read_line` returns what it
returns for an empty line, and `lsh_loop` started at end-of-input is still
running after any number of passes, each of which printed a prompt and
dispatched the empty vector. -/
theorem lsh_loop_spins_at_end_of_input :
    lsh_read_line [] = lsh_read_line [Char.ofNat 10] ∧
    ∀ (os : OS) (w : World) (fuel : Nat),
      lsh_loop os fuel { w with stdin := [] } = Run.outOfFuel
        { w with stdin := [],
                 stdout := w.stdout ++ List.replicate fuel (os.pw_name ++ "> "),
                 dispatched := w.dispatched ++ List.replicate fuel [] } := by
  refine ⟨by decide, ?_⟩
  intro os w fuel
  induction fuel generalizing w with
  | zero => simp [lsh_loop]
  | succ fuel ih =>
    have hb := lsh_loop_body_eof os w
    have := ih { w with stdout := w.stdout ++ [os.pw_name ++ "> "],
                        dispatched := w.dispatched ++ [[]] }
    simp only [lsh_loop, hb]
    simp only [ne_eq, one_ne_zero, not_false_eq_true, if_true]
    simp only at this
    rw [this]
    simp [List.replicate_succ]

end Lsh
